import Mathlib

set_option linter.unusedSectionVars false

/-!
Shallow embedding of the `Dgut/crdt` repository (`LWWElementGraph.h`):
a Last-Writer-Wins Element Set and a Last-Writer-Wins directed Graph
built from it, together with proofs of the specification claims.

The C++ code stores `std::unordered_map<E, T>` timestamp maps.  We embed
such a map as an association list `List (E × T)`; `mapFind` models
`find`/`at` (lookup of the first entry with the given key) and `mapSet`
models `m[e] = v` (overwrite the entry in place if the key is present,
append a fresh entry otherwise).  Every map reachable through the public
API has pairwise-distinct keys (`mapWF`), exactly as an
`std::unordered_map` does; well-formedness is an explicit hypothesis
where a proof needs it.  `std::unordered_map::operator==` compares
contents irrespective of bucket order, which on key-distinct maps is
precisely extensional equality of lookups; the `Equiv` relations below
model it that way.  Partial accesses (`at`, which throws
`std::out_of_range`) are modelled with `Option`, `none` standing for the
thrown exception.
-/

section MapModel

variable {E A T : Type} [DecidableEq E]

/-- Lookup of the first entry with key `e`; models `unordered_map::find`
    (`none` = `end()`) and, where the source guards the access, `at`. -/
def mapFind : List (E × A) → E → Option A
  | [], _ => none
  | (k, v) :: rest, e => if k = e then some v else mapFind rest e

/-- Models `m[e] = v`: overwrite the existing entry for `e` in place,
    or append a new entry when `e` is absent. -/
def mapSet : List (E × A) → E → A → List (E × A)
  | [], e, v => [(e, v)]
  | (k, w) :: rest, e, v =>
      if k = e then (k, v) :: rest else (k, w) :: mapSet rest e v

/-- Keys of an embedded map. -/
def mapKeys (m : List (E × A)) : List E := m.map Prod.fst

/-- Well-formedness: pairwise-distinct keys, as in `std::unordered_map`. -/
def mapWF (m : List (E × A)) : Prop := (mapKeys m).Nodup

instance (m : List (E × A)) : Decidable (mapWF m) := by
  unfold mapWF; infer_instance

theorem mapKeys_nil : mapKeys ([] : List (E × A)) = [] := rfl

theorem mapKeys_cons (a : E) (w : A) (rest : List (E × A)) :
    mapKeys ((a, w) :: rest) = a :: mapKeys rest := rfl

theorem mapFind_mapSet (m : List (E × A)) (e k : E) (v : A) :
    mapFind (mapSet m e v) k = if k = e then some v else mapFind m k := by
  induction m with
  | nil =>
      simp only [mapSet, mapFind]
      by_cases h : e = k
      · rw [if_pos h, if_pos h.symm]
      · rw [if_neg h, if_neg fun h2 => h h2.symm]
  | cons p rest ih =>
      obtain ⟨a, w⟩ := p
      simp only [mapSet, mapFind]
      by_cases hae : a = e
      · rw [if_pos hae]
        simp only [mapFind]
        by_cases hak : a = k
        · rw [if_pos hak, if_pos (hak ▸ hae)]
        · have hke : ¬ k = e := fun h => hak (by rw [hae, ← h])
          rw [if_neg hak, if_neg hke, if_neg hak]
      · rw [if_neg hae]
        simp only [mapFind]
        by_cases hak : a = k
        · have hke : ¬ k = e := fun h => hae (hak.trans h)
          rw [if_pos hak, if_neg hke, if_pos hak]
        · rw [if_neg hak, ih]
          by_cases hke : k = e
          · rw [if_pos hke, if_pos hke]
          · rw [if_neg hke, if_neg hke, if_neg hak]

theorem mapKeys_mapSet (m : List (E × A)) (e : E) (v : A) :
    mapKeys (mapSet m e v)
      = if e ∈ mapKeys m then mapKeys m else mapKeys m ++ [e] := by
  induction m with
  | nil => simp [mapSet, mapKeys]
  | cons p rest ih =>
      obtain ⟨a, w⟩ := p
      simp only [mapSet]
      by_cases hae : a = e
      · rw [if_pos hae]
        simp only [mapKeys_cons]
        have he : e ∈ a :: mapKeys rest := by
          rw [← hae]; exact List.mem_cons_self _ _
        rw [if_pos he]
      · rw [if_neg hae]
        simp only [mapKeys_cons, ih]
        have hmem : e ∈ a :: mapKeys rest ↔ e ∈ mapKeys rest := by
          constructor
          · intro h
            rcases List.mem_cons.mp h with h1 | h1
            · exact absurd h1.symm hae
            · exact h1
          · exact fun h => List.mem_cons_of_mem _ h
        by_cases he : e ∈ mapKeys rest
        · rw [if_pos he, if_pos (hmem.mpr he)]
        · rw [if_neg he, if_neg fun h2 => he (hmem.mp h2)]
          simp

theorem mapWF_mapSet (m : List (E × A)) (e : E) (v : A) (h : mapWF m) :
    mapWF (mapSet m e v) := by
  unfold mapWF at h ⊢
  rw [mapKeys_mapSet]
  by_cases he : e ∈ mapKeys m
  · rw [if_pos he]; exact h
  · rw [if_neg he]
    simp [List.nodup_append, h, he]

theorem mapFind_eq_none_iff (m : List (E × A)) (k : E) :
    mapFind m k = none ↔ k ∉ mapKeys m := by
  induction m with
  | nil => simp [mapFind, mapKeys]
  | cons p rest ih =>
      obtain ⟨a, w⟩ := p
      rw [mapKeys_cons]
      show (if a = k then some w else mapFind rest k) = none ↔ _
      by_cases hk : a = k
      · subst hk; simp
      · rw [if_neg hk, ih]
        constructor
        · intro h hmem
          rcases List.mem_cons.mp hmem with h1 | h1
          · exact hk h1.symm
          · exact h h1
        · intro h hmem
          exact h (List.mem_cons_of_mem _ hmem)

theorem mapFind_mem {m : List (E × A)} {k : E} {v : A}
    (h : mapFind m k = some v) : (k, v) ∈ m := by
  induction m with
  | nil => exact absurd h (by simp [mapFind])
  | cons p rest ih =>
      obtain ⟨a, w⟩ := p
      rw [show mapFind ((a, w) :: rest) k
            = if a = k then some w else mapFind rest k from rfl] at h
      by_cases hk : a = k
      · rw [if_pos hk] at h
        injection h with h
        subst hk; subst h
        exact List.mem_cons_self _ _
      · rw [if_neg hk] at h
        exact List.mem_cons_of_mem _ (ih h)

theorem mem_mapSet {m : List (E × A)} {e k : E} {v w : A}
    (h : (k, w) ∈ mapSet m e v) : (k, w) ∈ m ∨ (k, w) = (e, v) := by
  induction m with
  | nil =>
      right
      simpa [mapSet] using h
  | cons p rest ih =>
      obtain ⟨a, u⟩ := p
      by_cases hae : a = e
      · subst hae
        rw [show mapSet ((a, u) :: rest) a v = (a, v) :: rest from by
          simp [mapSet]] at h
        rcases List.mem_cons.mp h with h1 | h1
        · right; exact h1
        · left; exact List.mem_cons_of_mem _ h1
      · rw [show mapSet ((a, u) :: rest) e v = (a, u) :: mapSet rest e v from by
          simp [mapSet, hae]] at h
        rcases List.mem_cons.mp h with h1 | h1
        · left; exact h1 ▸ List.mem_cons_self _ _
        · rcases ih h1 with h2 | h2
          · left; exact List.mem_cons_of_mem _ h2
          · right; exact h2

end MapModel

section OptionMax

variable {T : Type} [LinearOrder T]

/-- Timestamp update performed by `Add`/`Remove`: `max` with the stored
    value when one exists, the raw value otherwise. -/
def omaxT (o : Option T) (t : T) : T :=
  match o with
  | none => t
  | some v => max v t

/-- Pointwise join of optional timestamps. -/
def omax (a b : Option T) : Option T :=
  match b with
  | none => a
  | some t => some (omaxT a t)

/-- Iterated `omaxT` along a list of timestamps. -/
def foldOMax (o : Option T) (l : List T) : Option T :=
  l.foldl (fun acc t => some (omaxT acc t)) o

theorem omax_none_left (b : Option T) : omax none b = b := by
  cases b <;> simp [omax, omaxT]

theorem omax_none_right (a : Option T) : omax a none = a := rfl

theorem omax_comm (a b : Option T) : omax a b = omax b a := by
  cases a <;> cases b <;> simp [omax, omaxT, max_comm]

theorem omax_assoc (a b c : Option T) :
    omax (omax a b) c = omax a (omax b c) := by
  cases a <;> cases b <;> cases c <;> simp [omax, omaxT, max_assoc]

theorem omax_self (a : Option T) : omax a a = a := by
  cases a <;> simp [omax, omaxT]

theorem foldOMax_append (o : Option T) (l1 l2 : List T) :
    foldOMax o (l1 ++ l2) = foldOMax (foldOMax o l1) l2 := by
  simp [foldOMax, List.foldl_append]

theorem foldOMax_toList (o : Option T) (ol : Option T) :
    foldOMax o ol.toList = omax o ol := by
  cases ol <;> simp [foldOMax, omax, Option.toList]

end OptionMax

/-- Last-Writer-Wins Set (`LWWElementSet` in `LWWElementGraph.h`): two
    timestamp maps, `add` and `remove`. -/
structure LWWElementSet (E T : Type) where
  add : List (E × T)
  remove : List (E × T)
deriving DecidableEq

section SetOps

variable {E T : Type} [DecidableEq E] [LinearOrder T]

/-- Default-constructed set (both maps empty). -/
def LWWElementSet.emptySet : LWWElementSet E T := ⟨[], []⟩

/-- Models `AddExist(e)`: was the element ever added?
    (`add.find(e) != add.end()`). -/
def LWWElementSet.AddExist (s : LWWElementSet E T) (e : E) : Bool :=
  (mapFind s.add e).isSome

/-- Models `RemoveExist(e)`: was the element ever removed? -/
def LWWElementSet.RemoveExist (s : LWWElementSet E T) (e : E) : Bool :=
  (mapFind s.remove e).isSome

/-- Models `AddTimestamp(e)`: `add.at(e)`; `none` models the
    `std::out_of_range` exception thrown for an element never added. -/
def LWWElementSet.AddTimestamp (s : LWWElementSet E T) (e : E) : Option T :=
  mapFind s.add e

/-- Models `RemoveTimestamp(e)`: `remove.at(e)`; `none` models the thrown
    `std::out_of_range` exception. -/
def LWWElementSet.RemoveTimestamp (s : LWWElementSet E T) (e : E) : Option T :=
  mapFind s.remove e

/-- Models `Add(e, t)`: if an add-timestamp is recorded, store
    `max(add[e], t)`, else store `t`. -/
def LWWElementSet.Add (s : LWWElementSet E T) (e : E) (t : T) :
    LWWElementSet E T :=
  match mapFind s.add e with
  | some v => { s with add := mapSet s.add e (max v t) }
  | none => { s with add := mapSet s.add e t }

/-- Models `Remove(e, t)`: symmetric to `Add` on the `remove` map. -/
def LWWElementSet.Remove (s : LWWElementSet E T) (e : E) (t : T) :
    LWWElementSet E T :=
  match mapFind s.remove e with
  | some v => { s with remove := mapSet s.remove e (max v t) }
  | none => { s with remove := mapSet s.remove e t }

/-- Models `Contains(e)`: `false` with no add-timestamp, `true` with no
    remove-timestamp, otherwise `AddTimestamp(e) > RemoveTimestamp(e)`.
    The source reads the timestamps through `at` after the
    `AddExist`/`RemoveExist` guards; the guard and the guarded access
    are fused into one `match` here. -/
def LWWElementSet.Contains (s : LWWElementSet E T) (e : E) : Bool :=
  match mapFind s.add e with
  | none => false
  | some ta =>
      match mapFind s.remove e with
      | none => true
      | some tr => decide (ta > tr)

/-- Models `Merge(s)`: apply `Add` for every entry of the other set's `add`
    map, then `Remove` for every entry of its `remove` map. -/
def LWWElementSet.Merge (s o : LWWElementSet E T) : LWWElementSet E T :=
  (o.remove.foldl (fun acc p => acc.Remove p.1 p.2)
    (o.add.foldl (fun acc p => acc.Add p.1 p.2) s))

/-- Models `operator==`: equality of the raw `add` and `remove` maps.
    `std::unordered_map::operator==` is content equality, which on
    key-distinct maps coincides with extensional equality of lookups. -/
def LWWElementSet.Equiv (s1 s2 : LWWElementSet E T) : Prop :=
  (∀ k, mapFind s1.add k = mapFind s2.add k) ∧
  (∀ k, mapFind s1.remove k = mapFind s2.remove k)

/-- Well-formed set state: both maps have pairwise-distinct keys, as
    any `std::unordered_map` does. -/
def LWWElementSet.WF (s : LWWElementSet E T) : Prop :=
  mapWF s.add ∧ mapWF s.remove

instance (s : LWWElementSet E T) : Decidable s.WF := by
  unfold LWWElementSet.WF; infer_instance

theorem Add_remove (s : LWWElementSet E T) (e : E) (t : T) :
    (s.Add e t).remove = s.remove := by
  unfold LWWElementSet.Add
  cases mapFind s.add e <;> rfl

theorem Remove_add (s : LWWElementSet E T) (e : E) (t : T) :
    (s.Remove e t).add = s.add := by
  unfold LWWElementSet.Remove
  cases mapFind s.remove e <;> rfl

theorem Add_add_find (s : LWWElementSet E T) (e k : E) (t : T) :
    mapFind (s.Add e t).add k
      = if k = e then some (omaxT (mapFind s.add e) t) else mapFind s.add k := by
  unfold LWWElementSet.Add
  cases h : mapFind s.add e <;> simp [h, mapFind_mapSet, omaxT]

theorem Remove_remove_find (s : LWWElementSet E T) (e k : E) (t : T) :
    mapFind (s.Remove e t).remove k
      = if k = e then some (omaxT (mapFind s.remove e) t)
        else mapFind s.remove k := by
  unfold LWWElementSet.Remove
  cases h : mapFind s.remove e <;> simp [h, mapFind_mapSet, omaxT]

theorem Add_WF {s : LWWElementSet E T} (e : E) (t : T) (h : s.WF) :
    (s.Add e t).WF := by
  obtain ⟨ha, hr⟩ := h
  unfold LWWElementSet.Add
  cases mapFind s.add e <;>
    exact ⟨mapWF_mapSet _ _ _ ha, hr⟩

theorem Remove_WF {s : LWWElementSet E T} (e : E) (t : T) (h : s.WF) :
    (s.Remove e t).WF := by
  obtain ⟨ha, hr⟩ := h
  unfold LWWElementSet.Remove
  cases mapFind s.remove e <;>
    exact ⟨ha, mapWF_mapSet _ _ _ hr⟩

/-- Timestamps a map associates with key `k`, in entry order (one per
    occurrence of `k`; at most one on a well-formed map). -/
def valuesAt (l : List (E × T)) (k : E) : List T :=
  (l.filter fun p => decide (p.1 = k)).map Prod.snd

theorem valuesAt_nil (k : E) : valuesAt ([] : List (E × T)) k = [] := rfl

theorem valuesAt_cons (a : E) (t : T) (rest : List (E × T)) (k : E) :
    valuesAt ((a, t) :: rest) k
      = if a = k then t :: valuesAt rest k else valuesAt rest k := by
  by_cases h : a = k <;> simp [valuesAt, h]

theorem valuesAt_of_not_mem {l : List (E × T)} {k : E}
    (h : k ∉ mapKeys l) : valuesAt l k = [] := by
  induction l with
  | nil => rfl
  | cons p rest ih =>
      obtain ⟨a, t⟩ := p
      rw [mapKeys_cons] at h
      rw [valuesAt_cons, if_neg (show ¬ a = k from fun h2 =>
        h (h2 ▸ List.mem_cons_self a (mapKeys rest)))]
      exact ih fun h2 => h (List.mem_cons_of_mem _ h2)

theorem valuesAt_of_nodup {l : List (E × T)} (k : E) (h : mapWF l) :
    valuesAt l k = (mapFind l k).toList := by
  induction l with
  | nil => rfl
  | cons p rest ih =>
      obtain ⟨a, t⟩ := p
      rw [mapWF, mapKeys_cons, List.nodup_cons] at h
      obtain ⟨ha, hrest⟩ := h
      rw [valuesAt_cons,
        show mapFind ((a, t) :: rest) k
          = if a = k then some t else mapFind rest k from rfl]
      by_cases hak : a = k
      · rw [if_pos hak, if_pos hak]
        rw [valuesAt_of_not_mem (hak ▸ ha)]
        rfl
      · rw [if_neg hak, if_neg hak, ih hrest]

/-- Lookup in the `add` map after folding `Add` over a list of
    entries: the join of the initial lookup with every timestamp the
    list carries for that key. -/
theorem foldAdd_add_find (l : List (E × T)) (s : LWWElementSet E T) (k : E) :
    mapFind ((l.foldl (fun acc p => acc.Add p.1 p.2) s)).add k
      = foldOMax (mapFind s.add k) (valuesAt l k) := by
  induction l generalizing s with
  | nil => rfl
  | cons p rest ih =>
      obtain ⟨a, t⟩ := p
      rw [List.foldl_cons, ih, Add_add_find, valuesAt_cons]
      by_cases hak : a = k
      · rw [if_pos hak, if_pos hak.symm, hak]
        rfl
      · rw [if_neg hak, if_neg fun h => hak h.symm]

theorem foldAdd_remove (l : List (E × T)) (s : LWWElementSet E T) :
    ((l.foldl (fun acc p => acc.Add p.1 p.2) s)).remove = s.remove := by
  induction l generalizing s with
  | nil => rfl
  | cons p rest ih => rw [List.foldl_cons, ih, Add_remove]

theorem foldRemove_remove_find (l : List (E × T)) (s : LWWElementSet E T)
    (k : E) :
    mapFind ((l.foldl (fun acc p => acc.Remove p.1 p.2) s)).remove k
      = foldOMax (mapFind s.remove k) (valuesAt l k) := by
  induction l generalizing s with
  | nil => rfl
  | cons p rest ih =>
      obtain ⟨a, t⟩ := p
      rw [List.foldl_cons, ih, Remove_remove_find, valuesAt_cons]
      by_cases hak : a = k
      · rw [if_pos hak, if_pos hak.symm, hak]
        rfl
      · rw [if_neg hak, if_neg fun h => hak h.symm]

theorem foldRemove_add (l : List (E × T)) (s : LWWElementSet E T) :
    ((l.foldl (fun acc p => acc.Remove p.1 p.2) s)).add = s.add := by
  induction l generalizing s with
  | nil => rfl
  | cons p rest ih => rw [List.foldl_cons, ih, Remove_add]

theorem Merge_add_find (s o : LWWElementSet E T) (k : E) (h : mapWF o.add) :
    mapFind (s.Merge o).add k = omax (mapFind s.add k) (mapFind o.add k) := by
  unfold LWWElementSet.Merge
  rw [foldRemove_add, foldAdd_add_find, valuesAt_of_nodup _ h, foldOMax_toList]

theorem Merge_remove_find (s o : LWWElementSet E T) (k : E)
    (h : mapWF o.remove) :
    mapFind (s.Merge o).remove k
      = omax (mapFind s.remove k) (mapFind o.remove k) := by
  unfold LWWElementSet.Merge
  rw [foldRemove_remove_find, foldAdd_remove, valuesAt_of_nodup _ h,
    foldOMax_toList]

theorem foldAdd_WF (l : List (E × T)) {s : LWWElementSet E T} (h : s.WF) :
    ((l.foldl (fun acc p => acc.Add p.1 p.2) s)).WF := by
  induction l generalizing s with
  | nil => exact h
  | cons p rest ih => rw [List.foldl_cons]; exact ih (Add_WF _ _ h)

theorem foldRemove_WF (l : List (E × T)) {s : LWWElementSet E T} (h : s.WF) :
    ((l.foldl (fun acc p => acc.Remove p.1 p.2) s)).WF := by
  induction l generalizing s with
  | nil => exact h
  | cons p rest ih => rw [List.foldl_cons]; exact ih (Remove_WF _ _ h)

theorem Merge_WF {s : LWWElementSet E T} (o : LWWElementSet E T)
    (h : s.WF) : (s.Merge o).WF :=
  foldRemove_WF _ (foldAdd_WF _ h)

theorem emptySet_WF : (LWWElementSet.emptySet : LWWElementSet E T).WF :=
  ⟨List.nodup_nil, List.nodup_nil⟩

end SetOps

/-- One operation of the LWW-Set interface that mutates state: a local
    `Add`, a local `Remove`, or a `Merge` with another replica. -/
inductive SetOp (E T : Type) where
  | add (e : E) (t : T)
  | remove (e : E) (t : T)
  | merge (o : LWWElementSet E T)

section SetHistory

variable {E T : Type} [DecidableEq E] [LinearOrder T]

/-- Apply one operation to a set state. -/
def applySetOp (s : LWWElementSet E T) : SetOp E T → LWWElementSet E T
  | .add e t => s.Add e t
  | .remove e t => s.Remove e t
  | .merge o => s.Merge o

/-- Apply a sequence of operations from left to right. -/
def applySetOps (s : LWWElementSet E T) (ops : List (SetOp E T)) :
    LWWElementSet E T :=
  ops.foldl applySetOp s

/-- Every add-timestamp an operation applies for element `e`: a local
    `Add e t` applies `t`; a `Merge` applies each entry of the other
    set's `add` map (that is literally what `Merge` executes). -/
def addContrib (e : E) : SetOp E T → List T
  | .add e2 t => if e2 = e then [t] else []
  | .remove _ _ => []
  | .merge o => valuesAt o.add e

/-- Every remove-timestamp an operation applies for element `e`. -/
def removeContrib (e : E) : SetOp E T → List T
  | .add _ _ => []
  | .remove e2 t => if e2 = e then [t] else []
  | .merge o => valuesAt o.remove e

/-- All add-timestamps a sequence of operations applies for `e`. -/
def addContribs (ops : List (SetOp E T)) (e : E) : List T :=
  ops.flatMap (addContrib e)

/-- All remove-timestamps a sequence of operations applies for `e`. -/
def removeContribs (ops : List (SetOp E T)) (e : E) : List T :=
  ops.flatMap (removeContrib e)

theorem applySetOp_add_find (s : LWWElementSet E T) (op : SetOp E T) (e : E) :
    mapFind (applySetOp s op).add e
      = foldOMax (mapFind s.add e) (addContrib e op) := by
  cases op with
  | add e2 t =>
      show mapFind (s.Add e2 t).add e = _
      rw [Add_add_find]
      simp only [addContrib]
      by_cases h : e2 = e
      · rw [if_pos h.symm, if_pos h, h]
        rfl
      · rw [if_neg fun h2 => h h2.symm, if_neg h]
        rfl
  | remove e2 t =>
      show mapFind (s.Remove e2 t).add e = _
      rw [Remove_add]
      rfl
  | merge o =>
      show mapFind (s.Merge o).add e = _
      unfold LWWElementSet.Merge
      rw [foldRemove_add, foldAdd_add_find]
      rfl

theorem applySetOp_remove_find (s : LWWElementSet E T) (op : SetOp E T)
    (e : E) :
    mapFind (applySetOp s op).remove e
      = foldOMax (mapFind s.remove e) (removeContrib e op) := by
  cases op with
  | add e2 t =>
      show mapFind (s.Add e2 t).remove e = _
      rw [Add_remove]
      rfl
  | remove e2 t =>
      show mapFind (s.Remove e2 t).remove e = _
      rw [Remove_remove_find]
      simp only [removeContrib]
      by_cases h : e2 = e
      · rw [if_pos h.symm, if_pos h, h]
        rfl
      · rw [if_neg fun h2 => h h2.symm, if_neg h]
        rfl
  | merge o =>
      show mapFind (s.Merge o).remove e = _
      unfold LWWElementSet.Merge
      rw [foldRemove_remove_find, foldAdd_remove]
      rfl

theorem applySetOps_add_find (ops : List (SetOp E T)) (s : LWWElementSet E T)
    (e : E) :
    mapFind (applySetOps s ops).add e
      = foldOMax (mapFind s.add e) (addContribs ops e) := by
  induction ops generalizing s with
  | nil => rfl
  | cons op rest ih =>
      show mapFind (applySetOps (applySetOp s op) rest).add e = _
      rw [ih, applySetOp_add_find,
        show addContribs (op :: rest) e
          = addContrib e op ++ addContribs rest e from by
            simp [addContribs, List.flatMap_cons],
        foldOMax_append]

theorem applySetOps_remove_find (ops : List (SetOp E T))
    (s : LWWElementSet E T) (e : E) :
    mapFind (applySetOps s ops).remove e
      = foldOMax (mapFind s.remove e) (removeContribs ops e) := by
  induction ops generalizing s with
  | nil => rfl
  | cons op rest ih =>
      show mapFind (applySetOps (applySetOp s op) rest).remove e = _
      rw [ih, applySetOp_remove_find,
        show removeContribs (op :: rest) e
          = removeContrib e op ++ removeContribs rest e from by
            simp [removeContribs, List.flatMap_cons],
        foldOMax_append]

end SetHistory

/-- Last-Writer-Wins directed Graph (`LWWElementGraph` in
    `LWWElementGraph.h`): a vertex LWW-Set and, per source vertex key,
    an LWW-Set of destination vertex keys. -/
structure LWWElementGraph (E T : Type) where
  vertices : LWWElementSet E T
  edges : List (E × LWWElementSet E T)
deriving DecidableEq

section GraphOps

variable {E T : Type} [DecidableEq E] [LinearOrder T]

/-- Default-constructed graph (no vertices, no edge sets). -/
def LWWElementGraph.emptyGraph : LWWElementGraph E T :=
  ⟨LWWElementSet.emptySet, []⟩

/-- Models `AddVertex(e, t)`: forwarded to the vertex set's `Add`. -/
def LWWElementGraph.AddVertex (g : LWWElementGraph E T) (e : E) (t : T) :
    LWWElementGraph E T :=
  { g with vertices := g.vertices.Add e t }

/-- Models `RemoveVertex(e, t)`: forwarded to the vertex set's `Remove`. -/
def LWWElementGraph.RemoveVertex (g : LWWElementGraph E T) (e : E) (t : T) :
    LWWElementGraph E T :=
  { g with vertices := g.vertices.Remove e t }

/-- Models `ContainsVertex(e)`: forwarded to the vertex set's `Contains`. -/
def LWWElementGraph.ContainsVertex (g : LWWElementGraph E T) (e : E) : Bool :=
  g.vertices.Contains e

/-- Models `AddEdge(from, to, t)`: `edges[from].Add(to, t)`, where `edges[from]`
    default-constructs an empty edge set when `from` has none yet. -/
def LWWElementGraph.AddEdge (g : LWWElementGraph E T) (src dst : E) (t : T) :
    LWWElementGraph E T :=
  let es := ((mapFind g.edges src).getD LWWElementSet.emptySet).Add dst t
  { g with edges := mapSet g.edges src es }

/-- Models `RemoveEdge(from, to, t)`: `edges[from].Remove(to, t)`, with the
    same default construction as `AddEdge`. -/
def LWWElementGraph.RemoveEdge (g : LWWElementGraph E T) (src dst : E)
    (t : T) : LWWElementGraph E T :=
  let es := ((mapFind g.edges src).getD LWWElementSet.emptySet).Remove dst t
  { g with edges := mapSet g.edges src es }

/-- The `RemoveExist(x) && addTimestamp <= RemoveTimestamp(x)` test of
    `ContainsEdge`: the guard and the guarded `at` access are fused
    into one `match` on the remove map lookup. -/
def remDominatesB (s : LWWElementSet E T) (e : E) (ta : T) : Bool :=
  match mapFind s.remove e with
  | some rt => decide (ta ≤ rt)
  | none => false

/-- The `addTimestamp < AddTimestamp(x)` test of `ContainsEdge`; the
    `at` access is guarded by the earlier `ContainsVertex(x)` check, so
    on every reachable branch the lookup is `some`. -/
def addBeforeVertexB (s : LWWElementSet E T) (e : E) (ta : T) : Bool :=
  match mapFind s.add e with
  | some va => decide (ta < va)
  | none => false

/-- Models `ContainsEdge(from, to)`: the four-condition edge validity
    predicate.  The `none` arm after the `Contains` guard is
    unreachable (`Contains` implies an add-timestamp is recorded). -/
def LWWElementGraph.ContainsEdge (g : LWWElementGraph E T) (src dst : E) :
    Bool :=
  match mapFind g.edges src with
  | none => false
  | some es =>
      if !(es.Contains dst) then false
      else if !(g.ContainsVertex src) || !(g.ContainsVertex dst) then false
      else
        match mapFind es.add dst with
        | none => false
        | some ta =>
            if remDominatesB g.vertices src ta
                || remDominatesB g.vertices dst ta then false
            else if addBeforeVertexB g.vertices src ta
                || addBeforeVertexB g.vertices dst ta then false
            else true

/-- Variant of `ContainsEdge` with every partial access (`at` /
    `AddTimestamp` / `RemoveTimestamp`) modelled explicitly: `none`
    means the C++ code would throw, `some b` that it returns `b`.
    Short-circuit evaluation of `&&` and `||` is preserved: a second
    operand is only looked up when the first does not decide. -/
def LWWElementGraph.ContainsEdgeChecked (g : LWWElementGraph E T)
    (src dst : E) : Option Bool :=
  match mapFind g.edges src with
  | none => some false
  | some es =>
      if !(es.Contains dst) then some false
      else if !(g.ContainsVertex src) || !(g.ContainsVertex dst) then
        some false
      else
        match es.AddTimestamp dst with
        | none => none
        | some ta =>
            match (if g.vertices.RemoveExist src then
                (g.vertices.RemoveTimestamp src).map fun rt => decide (ta ≤ rt)
              else some false) with
            | none => none
            | some true => some false
            | some false =>
                match (if g.vertices.RemoveExist dst then
                    (g.vertices.RemoveTimestamp dst).map fun rt =>
                      decide (ta ≤ rt)
                  else some false) with
                | none => none
                | some true => some false
                | some false =>
                    match g.vertices.AddTimestamp src with
                    | none => none
                    | some va =>
                        if ta < va then some false
                        else
                          match g.vertices.AddTimestamp dst with
                          | none => none
                          | some vb =>
                              if ta < vb then some false else some true

/-- Models `Merge(g)`: merge the vertex sets, then `edges[from].Merge(edge)`
    for every entry of the other graph's edge map (`edges[from]`
    default-constructs an empty set when absent). -/
def LWWElementGraph.Merge (g o : LWWElementGraph E T) :
    LWWElementGraph E T :=
  { vertices := g.vertices.Merge o.vertices,
    edges := o.edges.foldl
      (fun acc p =>
        mapSet acc p.1
          (((mapFind acc p.1).getD LWWElementSet.emptySet).Merge p.2))
      g.edges }

/-- Ordered insertion into a `std::set<E>` model. -/
def setInsert [LinearOrder E] : List E → E → List E
  | [], e => [e]
  | x :: xs, e =>
      if e < x then e :: x :: xs
      else if e = x then x :: xs
      else x :: setInsert xs e

/-- Models `AllConnectedVertices(e)`: scan every structural edge entry; for
    entries with source `e` collect valid outgoing neighbours, for
    other entries collect the source when a valid edge reaches `e`. -/
def LWWElementGraph.AllConnectedVertices [LinearOrder E]
    (g : LWWElementGraph E T) (e : E) : List E :=
  g.edges.foldl
    (fun res p =>
      if p.1 = e then
        p.2.add.foldl
          (fun r q => if g.ContainsEdge p.1 q.1 then setInsert r q.1 else r)
          res
      else
        p.2.add.foldl
          (fun r q =>
            if q.1 = e && g.ContainsEdge p.1 q.1 then setInsert r p.1 else r)
          res)
    []

/-- Path reconstruction of `AnyPath`: follow `previous` links from `e`
    back to `src`, listing the vertices walked (the C++ loop pushes the
    vertices in this order and then reverses).  Structurally recursive
    on a fuel bound; the chain through `previous` visits distinct keys,
    so `previous.length + 1` steps always suffice. -/
def reconstructPath [DecidableEq E] (src : E) :
    Nat → List (E × E) → E → Option (List E)
  | 0, _, _ => none
  | n + 1, prev, e =>
      if e = src then some [e]
      else
        match mapFind prev e with
        | none => none
        | some p => (reconstructPath src n prev p).map fun l => e :: l

/-- One `while (!queue.empty())` loop of `AnyPath`, with an explicit
    fuel bound on the number of iterations.  The queue is the first
    list argument, `previous` the second.  `none` models the
    `std::out_of_range` exception thrown by `edges.at(e)` when the
    popped vertex has no edge-set entry. -/
def anyPathLoop (g : LWWElementGraph E T) (src dst : E) :
    Nat → List E → List (E × E) → Option (List E)
  | 0, _, _ => none
  | _ + 1, [], _ => some []
  | n + 1, e :: rest, prev =>
      if e = dst then
        (reconstructPath src (prev.length + 1) prev e).map List.reverse
      else
        match mapFind g.edges e with
        | none => none
        | some es =>
            let step := es.add.foldl
              (fun (acc : List E × List (E × E)) q =>
                if (mapFind acc.2 q.1).isNone && g.ContainsEdge e q.1 then
                  (acc.1 ++ [q.1], mapSet acc.2 q.1 e)
                else acc)
              (rest, prev)
            anyPathLoop g src dst n step.1 step.2

/-- Fuel that always covers the loop: every vertex is pushed at most
    once (it is marked in `previous` when pushed), so the number of
    pops is at most one initial push plus one push per structural edge
    entry, and the loop body runs at most once more than that. -/
def bfsFuel (g : LWWElementGraph E T) : Nat :=
  2 + g.edges.foldl (fun n p => n + p.2.add.length) 0

/-- Models `AnyPath(from, to)`: breadth-first search over valid edges.
    `some l` models a returned vector, `none` the
    `std::out_of_range` exception escaping the call. -/
def LWWElementGraph.AnyPath (g : LWWElementGraph E T) (src dst : E) :
    Option (List E) :=
  if !(g.ContainsVertex src) || !(g.ContainsVertex dst) then some []
  else anyPathLoop g src dst (bfsFuel g) [src] (mapSet [] src src)

/-- Models `operator==` on graphs: vertex sets equal and edge maps equal,
    value-wise by the set-level `operator==`. -/
def LWWElementGraph.Equiv (g1 g2 : LWWElementGraph E T) : Prop :=
  g1.vertices.Equiv g2.vertices ∧
  ∀ k, (match mapFind g1.edges k, mapFind g2.edges k with
        | none, none => True
        | some a, some b => a.Equiv b
        | _, _ => False)

/-- Well-formed graph state: vertex set well-formed, edge map keys
    pairwise distinct, every stored edge set well-formed. -/
def LWWElementGraph.WF (g : LWWElementGraph E T) : Prop :=
  g.vertices.WF ∧ mapWF g.edges ∧ ∀ p ∈ g.edges, LWWElementSet.WF p.2

instance (g : LWWElementGraph E T) : Decidable g.WF := by
  unfold LWWElementGraph.WF; infer_instance

end GraphOps

section GraphMergeLemmas

variable {E T : Type} [DecidableEq E] [LinearOrder T]

/-- The step of the edge-map merge loop. -/
def mergeEdgeStep (acc : List (E × LWWElementSet E T))
    (p : E × LWWElementSet E T) : List (E × LWWElementSet E T) :=
  mapSet acc p.1 (((mapFind acc p.1).getD LWWElementSet.emptySet).Merge p.2)

theorem Merge_edges_def (g o : LWWElementGraph E T) :
    (g.Merge o).edges = o.edges.foldl mergeEdgeStep g.edges := rfl

theorem Merge_vertices_def (g o : LWWElementGraph E T) :
    (g.Merge o).vertices = g.vertices.Merge o.vertices := rfl

theorem mapFind_mergeEdgeStep (acc : List (E × LWWElementSet E T))
    (p : E × LWWElementSet E T) (k : E) :
    mapFind (mergeEdgeStep acc p) k
      = if k = p.1 then
          some (((mapFind acc p.1).getD LWWElementSet.emptySet).Merge p.2)
        else mapFind acc k := by
  unfold mergeEdgeStep
  rw [mapFind_mapSet]

/-- Lookup in the edge map after the merge loop over a key-distinct
    list of edge entries. -/
theorem foldMergeEdges_find (l : List (E × LWWElementSet E T))
    (acc : List (E × LWWElementSet E T)) (k : E) (h : mapWF l) :
    mapFind (l.foldl mergeEdgeStep acc) k
      = match mapFind l k with
        | none => mapFind acc k
        | some es =>
            some (((mapFind acc k).getD LWWElementSet.emptySet).Merge es) := by
  induction l generalizing acc with
  | nil => rfl
  | cons p rest ih =>
      obtain ⟨a, es⟩ := p
      rw [mapWF, mapKeys_cons, List.nodup_cons] at h
      obtain ⟨ha, hrest⟩ := h
      rw [List.foldl_cons, ih _ hrest,
        show mapFind ((a, es) :: rest) k
          = if a = k then some es else mapFind rest k from rfl]
      by_cases hak : a = k
      · rw [if_pos hak]
        have hnone : mapFind rest k = none :=
          (mapFind_eq_none_iff rest k).mpr (hak ▸ ha)
        rw [hnone, mapFind_mergeEdgeStep, if_pos hak.symm, hak]
      · rw [if_neg hak]
        have hstep : mapFind (mergeEdgeStep acc (a, es)) k = mapFind acc k := by
          rw [mapFind_mergeEdgeStep, if_neg fun h2 => hak h2.symm]
        cases hrk : mapFind rest k <;> simp only [hstep]

theorem foldMergeEdges_WF (l : List (E × LWWElementSet E T))
    {acc : List (E × LWWElementSet E T)} (hk : mapWF acc)
    (hv : ∀ p ∈ acc, LWWElementSet.WF p.2) :
    mapWF (l.foldl mergeEdgeStep acc)
      ∧ ∀ p ∈ l.foldl mergeEdgeStep acc, LWWElementSet.WF p.2 := by
  induction l generalizing acc with
  | nil => exact ⟨hk, hv⟩
  | cons p rest ih =>
      rw [List.foldl_cons]
      refine ih (mapWF_mapSet _ _ _ hk) ?_
      intro q hq
      rcases mem_mapSet hq with hmem | heq
      · exact hv _ hmem
      · have h2 : q.2 = ((mapFind acc p.1).getD LWWElementSet.emptySet).Merge p.2 :=
          congrArg Prod.snd heq
        rw [h2]
        refine Merge_WF _ ?_
        cases hfind : mapFind acc p.1 with
        | none => simp [hfind, Option.getD]; exact emptySet_WF
        | some es =>
            simp only [hfind, Option.getD_some]
            exact hv _ (mapFind_mem hfind)

/-- Lemma: `Merge` preserves graph well-formedness (only well-formedness of
    the receiver is needed: every stored value stays key-distinct). -/
theorem GraphMerge_WF {g : LWWElementGraph E T} (o : LWWElementGraph E T)
    (h : g.WF) : (g.Merge o).WF := by
  obtain ⟨hv, hk, hvals⟩ := h
  refine ⟨Merge_WF _ hv, ?_, ?_⟩
  · exact (foldMergeEdges_WF o.edges hk hvals).1
  · exact (foldMergeEdges_WF o.edges hk hvals).2

/-- Lookup of the add-timestamp of structural edge `(src, dst)`:
    `none` when `src` has no edge set or that set never added `dst`. -/
def eAddL (g : LWWElementGraph E T) (src dst : E) : Option T :=
  match mapFind g.edges src with
  | none => none
  | some es => mapFind es.add dst

/-- Lookup of the remove-timestamp of structural edge `(src, dst)`. -/
def eRemL (g : LWWElementGraph E T) (src dst : E) : Option T :=
  match mapFind g.edges src with
  | none => none
  | some es => mapFind es.remove dst

theorem WF_edge_set {g : LWWElementGraph E T} {k : E}
    {es : LWWElementSet E T} (hg : g.WF) (h : mapFind g.edges k = some es) :
    es.WF :=
  hg.2.2 _ (mapFind_mem h)

theorem eAddL_Merge (g o : LWWElementGraph E T) (src dst : E) (ho : o.WF) :
    eAddL (g.Merge o) src dst = omax (eAddL g src dst) (eAddL o src dst) := by
  unfold eAddL
  rw [Merge_edges_def, foldMergeEdges_find _ _ _ ho.2.1]
  cases hfo : mapFind o.edges src with
  | none =>
      cases mapFind g.edges src <;> rfl
  | some es =>
      have hwf : es.WF := WF_edge_set ho hfo
      simp only
      rw [Merge_add_find _ _ _ hwf.1]
      cases hfg : mapFind g.edges src with
      | none =>
          simp only [Option.getD_none]
          rw [show mapFind (LWWElementSet.emptySet :
            LWWElementSet E T).add dst = none from rfl, omax_none_left]
      | some es2 => simp only [Option.getD_some]

theorem eRemL_Merge (g o : LWWElementGraph E T) (src dst : E) (ho : o.WF) :
    eRemL (g.Merge o) src dst = omax (eRemL g src dst) (eRemL o src dst) := by
  unfold eRemL
  rw [Merge_edges_def, foldMergeEdges_find _ _ _ ho.2.1]
  cases hfo : mapFind o.edges src with
  | none =>
      cases mapFind g.edges src <;> rfl
  | some es =>
      have hwf : es.WF := WF_edge_set ho hfo
      simp only
      rw [Merge_remove_find _ _ _ hwf.2]
      cases hfg : mapFind g.edges src with
      | none =>
          simp only [Option.getD_none]
          rw [show mapFind (LWWElementSet.emptySet :
            LWWElementSet E T).remove dst = none from rfl, omax_none_left]
      | some es2 => simp only [Option.getD_some]

theorem Merge_edges_none_iff (g o : LWWElementGraph E T) (k : E)
    (ho : mapWF o.edges) :
    mapFind (g.Merge o).edges k = none
      ↔ mapFind g.edges k = none ∧ mapFind o.edges k = none := by
  rw [Merge_edges_def, foldMergeEdges_find _ _ _ ho]
  cases hfo : mapFind o.edges k <;> simp

/-- Two graphs with the same edge-map domain and the same structural
    edge lookups are `==`-equivalent. -/
theorem Equiv_of_lookups (g1 g2 : LWWElementGraph E T)
    (hv1 : ∀ k, mapFind g1.vertices.add k = mapFind g2.vertices.add k)
    (hv2 : ∀ k, mapFind g1.vertices.remove k = mapFind g2.vertices.remove k)
    (hdom : ∀ k, mapFind g1.edges k = none ↔ mapFind g2.edges k = none)
    (ha : ∀ s d, eAddL g1 s d = eAddL g2 s d)
    (hr : ∀ s d, eRemL g1 s d = eRemL g2 s d) :
    g1.Equiv g2 := by
  refine ⟨⟨hv1, hv2⟩, ?_⟩
  intro k
  cases h1 : mapFind g1.edges k with
  | none =>
      rw [(hdom k).mp h1]
      trivial
  | some a =>
      cases h2 : mapFind g2.edges k with
      | none =>
          have hc := (hdom k).mpr h2
          rw [h1] at hc
          cases hc
      | some b =>
          show a.Equiv b
          refine ⟨fun d => ?_, fun d => ?_⟩
          · have := ha k d
            unfold eAddL at this
            rw [h1, h2] at this
            exact this
          · have := hr k d
            unfold eRemL at this
            rw [h1, h2] at this
            exact this

end GraphMergeLemmas

section SetAlgebra

variable {E T : Type} [DecidableEq E] [LinearOrder T]

theorem SetMerge_idem {s : LWWElementSet E T} (h : s.WF) :
    (s.Merge s).Equiv s := by
  refine ⟨fun k => ?_, fun k => ?_⟩
  · rw [Merge_add_find _ _ _ h.1, omax_self]
  · rw [Merge_remove_find _ _ _ h.2, omax_self]

theorem SetMerge_comm {s o : LWWElementSet E T} (hs : s.WF) (ho : o.WF) :
    (s.Merge o).Equiv (o.Merge s) := by
  refine ⟨fun k => ?_, fun k => ?_⟩
  · rw [Merge_add_find _ _ _ ho.1, Merge_add_find _ _ _ hs.1, omax_comm]
  · rw [Merge_remove_find _ _ _ ho.2, Merge_remove_find _ _ _ hs.2, omax_comm]

theorem SetMerge_assoc {s o u : LWWElementSet E T} (ho : o.WF) (hu : u.WF) :
    ((s.Merge o).Merge u).Equiv (s.Merge (o.Merge u)) := by
  refine ⟨fun k => ?_, fun k => ?_⟩
  · rw [Merge_add_find _ _ _ hu.1, Merge_add_find _ _ _ ho.1,
      Merge_add_find _ _ _ (Merge_WF u ho).1, Merge_add_find _ _ _ hu.1,
      omax_assoc]
  · rw [Merge_remove_find _ _ _ hu.2, Merge_remove_find _ _ _ ho.2,
      Merge_remove_find _ _ _ (Merge_WF u ho).2, Merge_remove_find _ _ _ hu.2,
      omax_assoc]

end SetAlgebra

/-- Claim C1: the graph-level `Merge` is idempotent (`G.Merge(G) == G`),
    commutative (`A.Merge(B) == B.Merge(A)`), and associative (merging
    in any grouping yields the same state), state compared by the graph
    `operator==` over the raw vertex and edge maps, for every
    well-formed (key-distinct, as any `std::unordered_map` is) graph
    state. -/
theorem claim_C1 {E T : Type} [DecidableEq E] [LinearOrder T]
    (A B C : LWWElementGraph E T) (hA : A.WF) (hB : B.WF) (hC : C.WF) :
    (A.Merge A).Equiv A ∧ (A.Merge B).Equiv (B.Merge A) ∧
    ((A.Merge B).Merge C).Equiv (A.Merge (B.Merge C)) := by
  refine ⟨?_, ?_, ?_⟩
  · refine Equiv_of_lookups _ _ (fun k => ?_) (fun k => ?_) (fun k => ?_)
      (fun s d => ?_) (fun s d => ?_)
    · rw [Merge_vertices_def, Merge_add_find _ _ _ hA.1.1, omax_self]
    · rw [Merge_vertices_def, Merge_remove_find _ _ _ hA.1.2, omax_self]
    · rw [Merge_edges_none_iff _ _ _ hA.2.1]
      exact ⟨fun h => h.1, fun h => ⟨h, h⟩⟩
    · rw [eAddL_Merge _ _ _ _ hA, omax_self]
    · rw [eRemL_Merge _ _ _ _ hA, omax_self]
  · refine Equiv_of_lookups _ _ (fun k => ?_) (fun k => ?_) (fun k => ?_)
      (fun s d => ?_) (fun s d => ?_)
    · rw [Merge_vertices_def, Merge_vertices_def,
        Merge_add_find _ _ _ hB.1.1, Merge_add_find _ _ _ hA.1.1, omax_comm]
    · rw [Merge_vertices_def, Merge_vertices_def,
        Merge_remove_find _ _ _ hB.1.2, Merge_remove_find _ _ _ hA.1.2,
        omax_comm]
    · rw [Merge_edges_none_iff _ _ _ hB.2.1, Merge_edges_none_iff _ _ _ hA.2.1]
      exact ⟨fun h => ⟨h.2, h.1⟩, fun h => ⟨h.2, h.1⟩⟩
    · rw [eAddL_Merge _ _ _ _ hB, eAddL_Merge _ _ _ _ hA, omax_comm]
    · rw [eRemL_Merge _ _ _ _ hB, eRemL_Merge _ _ _ _ hA, omax_comm]
  · have hBC : (B.Merge C).WF := GraphMerge_WF C hB
    refine Equiv_of_lookups _ _ (fun k => ?_) (fun k => ?_) (fun k => ?_)
      (fun s d => ?_) (fun s d => ?_)
    · simp only [Merge_vertices_def]
      rw [Merge_add_find _ _ _ hC.1.1, Merge_add_find _ _ _ hB.1.1,
        Merge_add_find _ _ _ (Merge_WF C.vertices hB.1).1,
        Merge_add_find _ _ _ hC.1.1, omax_assoc]
    · simp only [Merge_vertices_def]
      rw [Merge_remove_find _ _ _ hC.1.2, Merge_remove_find _ _ _ hB.1.2,
        Merge_remove_find _ _ _ (Merge_WF C.vertices hB.1).2,
        Merge_remove_find _ _ _ hC.1.2, omax_assoc]
    · rw [Merge_edges_none_iff _ _ _ hC.2.1, Merge_edges_none_iff _ _ _ hB.2.1,
        Merge_edges_none_iff _ _ _ hBC.2.1, Merge_edges_none_iff _ _ _ hC.2.1]
      exact ⟨fun h => ⟨h.1.1, h.1.2, h.2⟩, fun h => ⟨⟨h.1, h.2.1⟩, h.2.2⟩⟩
    · rw [eAddL_Merge _ _ _ _ hC, eAddL_Merge _ _ _ _ hB,
        eAddL_Merge _ _ _ _ hBC, eAddL_Merge _ _ _ _ hC, omax_assoc]
    · rw [eRemL_Merge _ _ _ _ hC, eRemL_Merge _ _ _ _ hB,
        eRemL_Merge _ _ _ _ hBC, eRemL_Merge _ _ _ _ hC, omax_assoc]

/-- Replica used to witness claim C1. -/
def wGraphA : LWWElementGraph Int Int :=
  ((LWWElementGraph.emptyGraph.AddVertex 0 0).AddEdge 0 1 2)

/-- Second replica used to witness claim C1. -/
def wGraphB : LWWElementGraph Int Int :=
  ((LWWElementGraph.emptyGraph.AddVertex 1 1).RemoveVertex 0 3)

/-- Third replica used to witness claim C1. -/
def wGraphC : LWWElementGraph Int Int :=
  (((LWWElementGraph.emptyGraph.AddVertex 2 2).AddEdge 1 0 1).RemoveEdge 0 1 4)

/-- Witness for claim C1 at three concrete replicas. -/
theorem claim_C1_witness :
    wGraphA.WF ∧ wGraphB.WF ∧ wGraphC.WF ∧
    ((wGraphA.Merge wGraphA).Equiv wGraphA ∧
     (wGraphA.Merge wGraphB).Equiv (wGraphB.Merge wGraphA) ∧
     ((wGraphA.Merge wGraphB).Merge wGraphC).Equiv
       (wGraphA.Merge (wGraphB.Merge wGraphC))) :=
  ⟨by decide, by decide, by decide,
    claim_C1 wGraphA wGraphB wGraphC (by decide) (by decide) (by decide)⟩

theorem Contains_add_some {E T : Type} [DecidableEq E] [LinearOrder T]
    {s : LWWElementSet E T} {e : E} (h : s.Contains e = true) :
    ∃ ta, mapFind s.add e = some ta := by
  unfold LWWElementSet.Contains at h
  cases hf : mapFind s.add e with
  | none => rw [hf] at h; cases h
  | some ta => exact ⟨ta, rfl⟩

/-- Claim C2: for every LWW-Set state and element, `Contains` returns
    `false` with no recorded add-timestamp, `true` with an
    add-timestamp and no remove-timestamp, and otherwise `true` iff the
    add-timestamp strictly exceeds the remove-timestamp (remove wins
    ties); in particular `Add(e, t)` followed by `Remove(e, t)` on a
    fresh element leaves `Contains(e) == false`. -/
theorem claim_C2 {E T : Type} [DecidableEq E] [LinearOrder T]
    (s : LWWElementSet E T) (e : E) :
    (mapFind s.add e = none → s.Contains e = false) ∧
    (∀ ta, mapFind s.add e = some ta → mapFind s.remove e = none →
      s.Contains e = true) ∧
    (∀ ta tr, mapFind s.add e = some ta → mapFind s.remove e = some tr →
      (s.Contains e = true ↔ ta > tr)) ∧
    (∀ t : T, (((LWWElementSet.emptySet : LWWElementSet E T).Add e t
      ).Remove e t).Contains e = false) := by
  refine ⟨?_, ?_, ?_, ?_⟩
  · intro h
    unfold LWWElementSet.Contains
    rw [h]
  · intro ta ha hr
    unfold LWWElementSet.Contains
    rw [ha, hr]
  · intro ta tr ha hr
    unfold LWWElementSet.Contains
    rw [ha, hr]
    exact decide_eq_true_iff
  · intro t
    have hadd : ((LWWElementSet.emptySet : LWWElementSet E T).Add e t).add
        = [(e, t)] := by
      show mapSet [] e t = [(e, t)]
      rfl
    have hrem : ((LWWElementSet.emptySet : LWWElementSet E T).Add e t).remove
        = [] := Add_remove _ _ _
    unfold LWWElementSet.Contains
    rw [Remove_add, Remove_remove_find, hadd, hrem]
    rw [show mapFind [(e, t)] e = some t from by
      show (if e = e then some t else none) = some t
      rw [if_pos rfl]]
    rw [if_pos rfl]
    simp [omaxT, mapFind]

/-- Witness for claim C2: tie timestamps make the element absent. -/
theorem claim_C2_witness :
    (({ add := [((0 : Int), (5 : Int))], remove := [(0, 5)] } :
        LWWElementSet Int Int).Contains 0 = true ↔ (5 : Int) > 5) ∧
    ((LWWElementSet.emptySet.Add (0 : Int) (7 : Int)).Remove 0 7).Contains 0
      = false :=
  ⟨(claim_C2 _ 0).2.2.1 5 5 (by decide) (by decide),
   (claim_C2 (LWWElementSet.emptySet : LWWElementSet Int Int) 0).2.2.2 7⟩

theorem ContainsEdge_some {E T : Type} [DecidableEq E] [LinearOrder T]
    {g : LWWElementGraph E T} {src : E} {es : LWWElementSet E T}
    (h : mapFind g.edges src = some es) (dst : E) :
    g.ContainsEdge src dst
      = (if !(es.Contains dst) then false
         else if !(g.ContainsVertex src) || !(g.ContainsVertex dst) then
           false
         else
           match mapFind es.add dst with
           | none => false
           | some ta =>
               if remDominatesB g.vertices src ta
                   || remDominatesB g.vertices dst ta then false
               else if addBeforeVertexB g.vertices src ta
                   || addBeforeVertexB g.vertices dst ta then false
               else true) := by
  unfold LWWElementGraph.ContainsEdge
  rw [h]

/-- Claim C4: when conditions 1-3 of the edge validity predicate hold
    (structural containment with add-timestamp `ta`, both endpoints
    alive with add-timestamps `af`, `av`, and no dominating endpoint
    removal), `ContainsEdge` is `true` exactly when `ta` is at least
    both endpoint add-timestamps, i.e. `false` whenever the edge
    timestamp is strictly below either endpoint's add-timestamp and
    `true` at greater-or-equal timestamps. -/
theorem claim_C4 {E T : Type} [DecidableEq E] [LinearOrder T]
    (g : LWWElementGraph E T) (src dst : E) (es : LWWElementSet E T)
    (ta af av : T)
    (h1 : mapFind g.edges src = some es)
    (h1b : es.Contains dst = true)
    (hta : mapFind es.add dst = some ta)
    (h2a : g.ContainsVertex src = true)
    (h2b : g.ContainsVertex dst = true)
    (haf : mapFind g.vertices.add src = some af)
    (hav : mapFind g.vertices.add dst = some av)
    (h3a : remDominatesB g.vertices src ta = false)
    (h3b : remDominatesB g.vertices dst ta = false) :
    g.ContainsEdge src dst = true ↔ (af ≤ ta ∧ av ≤ ta) := by
  have hbf : addBeforeVertexB g.vertices src ta = decide (ta < af) := by
    unfold addBeforeVertexB
    rw [haf]
  have hbv : addBeforeVertexB g.vertices dst ta = decide (ta < av) := by
    unfold addBeforeVertexB
    rw [hav]
  rw [ContainsEdge_some h1, hta]
  simp [h1b, h2a, h2b, h3a, h3b, hbf, hbv, not_lt]

/-- Graph used to witness claim C4: both vertices at time `0`, the
    edge at time `1`. -/
def wGraphC4 : LWWElementGraph Int Int :=
  (((LWWElementGraph.emptyGraph.AddVertex 0 0).AddVertex 1 0).AddEdge 0 1 1)

/-- Witness for claim C4 at a concrete graph. -/
theorem claim_C4_witness :
    wGraphC4.ContainsEdge 0 1 = true ↔ ((0 : Int) ≤ 1 ∧ (0 : Int) ≤ 1) :=
  claim_C4 wGraphC4 0 1 { add := [(1, 1)], remove := [] } 1 0 0
    (by decide) (by decide) (by decide) (by decide) (by decide)
    (by decide) (by decide) (by decide) (by decide)

theorem remDominatesB_of_le {E T : Type} [DecidableEq E] [LinearOrder T]
    {s : LWWElementSet E T} {e : E} {ta rt : T}
    (h : mapFind s.remove e = some rt) (hle : ta ≤ rt) :
    remDominatesB s e ta = true := by
  unfold remDominatesB
  rw [h]
  exact decide_eq_true hle

/-- Claim C5: a recorded removal of either endpoint with timestamp at
    least the edge's add-timestamp forces `ContainsEdge == false`, even
    though the edge entry itself stays in its LWW-Set (hypothesis
    `hta`: the structural entry is present, nothing is deleted). -/
theorem claim_C5 {E T : Type} [DecidableEq E] [LinearOrder T]
    (g : LWWElementGraph E T) (src dst : E) (es : LWWElementSet E T)
    (ta : T)
    (h1 : mapFind g.edges src = some es)
    (hta : mapFind es.add dst = some ta)
    (hdom : (∃ rt, mapFind g.vertices.remove src = some rt ∧ ta ≤ rt) ∨
            (∃ rt, mapFind g.vertices.remove dst = some rt ∧ ta ≤ rt)) :
    g.ContainsEdge src dst = false := by
  rw [ContainsEdge_some h1, hta]
  cases hc : es.Contains dst with
  | false => simp [hc]
  | true =>
      rcases hdom with ⟨rt, hr, hle⟩ | ⟨rt, hr, hle⟩ <;>
        simp [hc, remDominatesB_of_le hr hle]

/-- Graph used to witness claim C5: vertex `1` removed at the same
    timestamp the edge `0 → 1` was added. -/
def wGraphC5 : LWWElementGraph Int Int :=
  ((((LWWElementGraph.emptyGraph.AddVertex 0 0).AddVertex 1 0).AddEdge 0 1 1
    ).RemoveVertex 1 1)

/-- Witness for claim C5 at a concrete graph. -/
theorem claim_C5_witness : wGraphC5.ContainsEdge 0 1 = false :=
  claim_C5 wGraphC5 0 1 { add := [(1, 1)], remove := [] } 1
    (by decide) (by decide) (Or.inr ⟨1, by decide, by decide⟩)

section FoldOMaxSpec

variable {T : Type} [LinearOrder T]

theorem foldOMax_isSome (a : T) (l : List T) :
    (foldOMax (some a) l).isSome = true := by
  induction l generalizing a with
  | nil => rfl
  | cons x rest ih => exact ih (omaxT (some a) x)

theorem foldOMax_none_eq_nil (l : List T) :
    foldOMax (none : Option T) l = none ↔ l = [] := by
  cases l with
  | nil => simp [foldOMax]
  | cons x rest =>
      constructor
      · intro h
        have hs := foldOMax_isSome (omaxT none x) rest
        rw [show foldOMax (none : Option T) (x :: rest)
            = foldOMax (some (omaxT none x)) rest from rfl] at h
        rw [h] at hs
        cases hs
      · intro h
        cases h

theorem omaxT_left_le (o : Option T) (x : T) (a : T) (h : o = some a) :
    a ≤ omaxT o x := by
  rw [h]
  exact le_max_left a x

theorem omaxT_right_le (o : Option T) (x : T) : x ≤ omaxT o x := by
  cases o with
  | none => exact le_refl x
  | some v => exact le_max_right v x

/-- A `some` result of `foldOMax` is the maximum of the initial value
    and the listed timestamps. -/
theorem foldOMax_spec (l : List T) (o : Option T) (t : T)
    (h : foldOMax o l = some t) :
    (t ∈ l ∨ o = some t) ∧ (∀ u ∈ l, u ≤ t) ∧ (∀ a, o = some a → a ≤ t) := by
  induction l generalizing o with
  | nil =>
      refine ⟨Or.inr h, by simp, ?_⟩
      intro a ha
      rw [ha] at h
      injection h with h
      exact h.le
  | cons x rest ih =>
      have h2 : foldOMax (some (omaxT o x)) rest = some t := h
      obtain ⟨hmem, hub, hinit⟩ := ih (some (omaxT o x)) h2
      have hox : omaxT o x ≤ t := hinit _ rfl
      refine ⟨?_, ?_, ?_⟩
      · rcases hmem with hm | hm
        · exact Or.inl (List.mem_cons_of_mem _ hm)
        · have heq : omaxT o x = t := Option.some.inj hm
          cases o with
          | none =>
              exact Or.inl ((show x = t from heq) ▸
                List.mem_cons_self x rest)
          | some v =>
              rcases max_choice v x with hc | hc
              · right
                rw [show v = t from by rw [← heq]; exact hc.symm]
              · left
                exact (show x = t from by rw [← heq]; exact hc.symm) ▸
                  List.mem_cons_self x rest
      · intro u hu
        rcases List.mem_cons.mp hu with h1 | h1
        · exact h1 ▸ le_trans (omaxT_right_le o x) hox
        · exact hub u h1
      · intro a ha
        exact le_trans (omaxT_left_le o x a ha) hox

end FoldOMaxSpec

/-- Claim C7: after any operation history from the empty set, the
    stored add-timestamp of any element is exactly the join of every
    add-timestamp ever applied for it (locally or through merges), and
    when it is `some t` then `t` is one of and bounds all applied
    timestamps; symmetrically for remove-timestamps; and `Merge`
    computes the pointwise maximum (join) of the two add maps and of
    the two remove maps. -/
theorem claim_C7 (E T : Type) [DecidableEq E] [LinearOrder T] :
    (∀ (ops : List (SetOp E T)) (e : E),
      mapFind (applySetOps LWWElementSet.emptySet ops).add e
          = foldOMax none (addContribs ops e) ∧
      mapFind (applySetOps LWWElementSet.emptySet ops).remove e
          = foldOMax none (removeContribs ops e) ∧
      (∀ t, mapFind (applySetOps LWWElementSet.emptySet ops).add e = some t →
        t ∈ addContribs ops e ∧ ∀ u ∈ addContribs ops e, u ≤ t) ∧
      (∀ t,
        mapFind (applySetOps LWWElementSet.emptySet ops).remove e = some t →
        t ∈ removeContribs ops e ∧ ∀ u ∈ removeContribs ops e, u ≤ t)) ∧
    (∀ (s o : LWWElementSet E T) (e : E), o.WF →
      mapFind (s.Merge o).add e = omax (mapFind s.add e) (mapFind o.add e) ∧
      mapFind (s.Merge o).remove e
        = omax (mapFind s.remove e) (mapFind o.remove e)) := by
  constructor
  · intro ops e
    have ha := applySetOps_add_find ops
      (LWWElementSet.emptySet : LWWElementSet E T) e
    have hr := applySetOps_remove_find ops
      (LWWElementSet.emptySet : LWWElementSet E T) e
    refine ⟨ha, hr, ?_, ?_⟩
    · intro t ht
      rw [ha] at ht
      obtain ⟨hmem, hub, _⟩ := foldOMax_spec _ _ _ ht
      rcases hmem with hm | hm
      · exact ⟨hm, hub⟩
      · cases hm
    · intro t ht
      rw [hr] at ht
      obtain ⟨hmem, hub, _⟩ := foldOMax_spec _ _ _ ht
      rcases hmem with hm | hm
      · exact ⟨hm, hub⟩
      · cases hm
  · intro s o e ho
    exact ⟨Merge_add_find _ _ _ ho.1, Merge_remove_find _ _ _ ho.2⟩

/-- Witness for claim C7: a concrete history and a concrete merge. -/
theorem claim_C7_witness :
    (mapFind (applySetOps (LWWElementSet.emptySet : LWWElementSet Int Int)
        [SetOp.add 0 3, SetOp.add 0 1]).add 0
      = foldOMax none (addContribs
          [SetOp.add (0 : Int) (3 : Int), SetOp.add 0 1] 0)) ∧
    ((⟨[(0, 7)], []⟩ : LWWElementSet Int Int).WF ∧
      mapFind ((⟨[(0, 4)], []⟩ : LWWElementSet Int Int).Merge
          ⟨[(0, 7)], []⟩).add 0
        = omax (mapFind (⟨[(0, 4)], []⟩ : LWWElementSet Int Int).add 0)
            (mapFind (⟨[(0, 7)], []⟩ : LWWElementSet Int Int).add 0)) :=
  ⟨((claim_C7 Int Int).1 [SetOp.add 0 3, SetOp.add 0 1] 0).1,
   ⟨by decide,
    ((claim_C7 Int Int).2 ⟨[(0, 4)], []⟩ ⟨[(0, 7)], []⟩ 0 (by decide)).1⟩⟩

/-- Claim C8: the two timestamp accessors fail (NotFound, modelled as
    `none`) exactly for elements never added (respectively never
    removed) in the operation history, and succeed returning the stored
    timestamp whenever `AddExist` (resp. `RemoveExist`) holds; every
    other embedded operation of the interface is a total function. -/
theorem claim_C8 (E T : Type) [DecidableEq E] [LinearOrder T] :
    (∀ (ops : List (SetOp E T)) (e : E),
      ((applySetOps LWWElementSet.emptySet ops).AddTimestamp e = none
          ↔ addContribs ops e = []) ∧
      ((applySetOps LWWElementSet.emptySet ops).RemoveTimestamp e = none
          ↔ removeContribs ops e = [])) ∧
    (∀ (s : LWWElementSet E T) (e : E),
      (s.AddExist e = true →
        ∃ t, mapFind s.add e = some t ∧ s.AddTimestamp e = some t) ∧
      (s.RemoveExist e = true →
        ∃ t, mapFind s.remove e = some t ∧ s.RemoveTimestamp e = some t) ∧
      (s.AddExist e = false → s.AddTimestamp e = none) ∧
      (s.RemoveExist e = false → s.RemoveTimestamp e = none)) := by
  constructor
  · intro ops e
    constructor
    · rw [show (applySetOps (LWWElementSet.emptySet : LWWElementSet E T)
          ops).AddTimestamp e
        = mapFind (applySetOps LWWElementSet.emptySet ops).add e from rfl]
      rw [applySetOps_add_find]
      exact foldOMax_none_eq_nil _
    · rw [show (applySetOps (LWWElementSet.emptySet : LWWElementSet E T)
          ops).RemoveTimestamp e
        = mapFind (applySetOps LWWElementSet.emptySet ops).remove e from rfl]
      rw [applySetOps_remove_find]
      exact foldOMax_none_eq_nil _
  · intro s e
    refine ⟨?_, ?_, ?_, ?_⟩
    · intro h
      unfold LWWElementSet.AddExist at h
      cases hf : mapFind s.add e with
      | none => rw [hf] at h; cases h
      | some t => exact ⟨t, rfl, hf⟩
    · intro h
      unfold LWWElementSet.RemoveExist at h
      cases hf : mapFind s.remove e with
      | none => rw [hf] at h; cases h
      | some t => exact ⟨t, rfl, hf⟩
    · intro h
      unfold LWWElementSet.AddExist at h
      cases hf : mapFind s.add e with
      | none => exact hf
      | some t => rw [hf] at h; cases h
    · intro h
      unfold LWWElementSet.RemoveExist at h
      cases hf : mapFind s.remove e with
      | none => exact hf
      | some t => rw [hf] at h; cases h

/-- Witness for claim C8: an element only removed has no add-timestamp;
    an added element's accessor returns the stored timestamp. -/
theorem claim_C8_witness :
    ((applySetOps (LWWElementSet.emptySet : LWWElementSet Int Int)
        [SetOp.remove 0 5]).AddTimestamp 0 = none
      ↔ addContribs [SetOp.remove (0 : Int) (5 : Int)] 0 = []) ∧
    (∃ t, mapFind (⟨[(0, 3)], []⟩ : LWWElementSet Int Int).add 0 = some t ∧
      (⟨[(0, 3)], []⟩ : LWWElementSet Int Int).AddTimestamp 0 = some t) :=
  ⟨((claim_C8 Int Int).1 [SetOp.remove 0 5] 0).1,
   ((claim_C8 Int Int).2 ⟨[(0, 3)], []⟩ 0).1 (by decide)⟩

theorem AddEdge_edges {E T : Type} [DecidableEq E] [LinearOrder T]
    (g : LWWElementGraph E T) (src dst : E) (t : T) :
    (g.AddEdge src dst t).edges
      = mapSet g.edges src
          (((mapFind g.edges src).getD LWWElementSet.emptySet).Add dst t) :=
  rfl

theorem RemoveEdge_edges {E T : Type} [DecidableEq E] [LinearOrder T]
    (g : LWWElementGraph E T) (src dst : E) (t : T) :
    (g.RemoveEdge src dst t).edges
      = mapSet g.edges src
          (((mapFind g.edges src).getD LWWElementSet.emptySet).Remove dst t) :=
  rfl

/-- Claim C10: `AddEdge` and `RemoveEdge` never touch the vertex set
    nor any edge set with a source key other than `from`, and `AddEdge`
    unconditionally records the timestamp join for `(from, to)` — no
    check that the endpoints are vertices of the graph is performed. -/
theorem claim_C10 {E T : Type} [DecidableEq E] [LinearOrder T]
    (g : LWWElementGraph E T) (src dst k : E) (t : T) :
    (g.AddEdge src dst t).vertices = g.vertices ∧
    (g.RemoveEdge src dst t).vertices = g.vertices ∧
    (k ≠ src → mapFind (g.AddEdge src dst t).edges k = mapFind g.edges k) ∧
    (k ≠ src → mapFind (g.RemoveEdge src dst t).edges k = mapFind g.edges k) ∧
    eAddL (g.AddEdge src dst t) src dst = some (omaxT (eAddL g src dst) t) ∧
    eRemL (g.RemoveEdge src dst t) src dst
      = some (omaxT (eRemL g src dst) t) := by
  refine ⟨rfl, rfl, ?_, ?_, ?_, ?_⟩
  · intro hk
    rw [AddEdge_edges, mapFind_mapSet, if_neg hk]
  · intro hk
    rw [RemoveEdge_edges, mapFind_mapSet, if_neg hk]
  · unfold eAddL
    rw [AddEdge_edges, mapFind_mapSet, if_pos rfl]
    simp only
    rw [Add_add_find, if_pos rfl]
    cases hf : mapFind g.edges src with
    | none => rfl
    | some es => rfl
  · unfold eRemL
    rw [RemoveEdge_edges, mapFind_mapSet, if_pos rfl]
    simp only
    rw [Remove_remove_find, if_pos rfl]
    cases hf : mapFind g.edges src with
    | none => rfl
    | some es => rfl

/-- Graph used to witness claim C10; note vertex `7` was never added,
    yet `AddEdge 7 8` records the edge. -/
def wGraphC10 : LWWElementGraph Int Int :=
  ((LWWElementGraph.emptyGraph.AddVertex 0 0).AddEdge 0 1 1)

/-- Witness for claim C10 at a concrete graph and key. -/
theorem claim_C10_witness :
    (mapFind ((wGraphC10.AddEdge 7 8 2).edges) 0
        = mapFind wGraphC10.edges 0) ∧
    eAddL (wGraphC10.AddEdge 7 8 2) 7 8
        = some (omaxT (eAddL wGraphC10 7 8) 2) ∧
    (wGraphC10.AddEdge 7 8 2).vertices = wGraphC10.vertices :=
  ⟨(claim_C10 wGraphC10 7 8 0 2).2.2.1 (by decide),
   (claim_C10 wGraphC10 7 8 0 2).2.2.2.2.1,
   (claim_C10 wGraphC10 7 8 0 2).1⟩

/-- Graph exhibiting the missing-adjacency failure: two live vertices
    and an empty edge map. -/
def gMissingAdj : LWWElementGraph Int Int :=
  ((LWWElementGraph.emptyGraph.AddVertex 0 0).AddVertex 1 0)

/-- Claim C3 (evaluation at the failing input): both endpoints are
    alive, `AllConnectedVertices` completes, but `AnyPath(0, 1)`
    evaluates to `none` — the modelled `std::out_of_range` thrown by
    `edges.at(0)` in the breadth-first loop — instead of completing
    without error, refuting the claim for the reference code. -/
theorem claim_C3_eval :
    gMissingAdj.ContainsVertex 0 = true ∧
    gMissingAdj.ContainsVertex 1 = true ∧
    gMissingAdj.AllConnectedVertices 0 = [] ∧
    gMissingAdj.AnyPath 0 1 = none := by decide

/-- Graph exhibiting the `AnyPath` failure with a valid edge present:
    vertices `0`, `1`, `2` and the single valid edge `0 → 2`. -/
def gPathCrash : LWWElementGraph Int Int :=
  ((((LWWElementGraph.emptyGraph.AddVertex 0 0).AddVertex 1 0
    ).AddVertex 2 0).AddEdge 0 2 1)

/-- Claim C6 (evaluation at the failing input): no directed valid path
    from `0` to `1` exists, so the claim requires an empty sequence,
    but the search expands vertex `2`, whose absent edge entry makes
    `edges.at(2)` throw (`none`); the self-path case still returns
    `[0]`. -/
theorem claim_C6_eval :
    gPathCrash.ContainsVertex 0 = true ∧
    gPathCrash.ContainsVertex 1 = true ∧
    gPathCrash.ContainsEdge 0 2 = true ∧
    gPathCrash.AnyPath 0 1 = none ∧
    gPathCrash.AnyPath 0 0 = some [0] := by decide

theorem checkedRem_eq {E T : Type} [DecidableEq E] [LinearOrder T]
    (s : LWWElementSet E T) (e : E) (ta : T) :
    (if s.RemoveExist e then
        (s.RemoveTimestamp e).map fun rt => decide (ta ≤ rt)
      else some false) = some (remDominatesB s e ta) := by
  unfold LWWElementSet.RemoveExist LWWElementSet.RemoveTimestamp remDominatesB
  cases hf : mapFind s.remove e with
  | none => rfl
  | some rt => rfl

theorem addBeforeVertexB_some {E T : Type} [DecidableEq E] [LinearOrder T]
    {s : LWWElementSet E T} {e : E} {va : T} (ta : T)
    (h : mapFind s.add e = some va) :
    addBeforeVertexB s e ta = decide (ta < va) := by
  unfold addBeforeVertexB
  rw [h]

/-- Claim C9: `ContainsEdge` is total — on every state and key pair
    the version with explicitly modelled partial accesses returns
    `some` of the total answer; no `at` lookup it performs can throw,
    each being guarded by the corresponding existence check. -/
theorem claim_C9 {E T : Type} [DecidableEq E] [LinearOrder T]
    (g : LWWElementGraph E T) (src dst : E) :
    g.ContainsEdgeChecked src dst = some (g.ContainsEdge src dst) := by
  unfold LWWElementGraph.ContainsEdgeChecked LWWElementGraph.ContainsEdge
  cases hf : mapFind g.edges src with
  | none => rfl
  | some es =>
      simp only
      cases hc : es.Contains dst with
      | false => simp [hc]
      | true =>
          obtain ⟨ta, hta⟩ := Contains_add_some hc
          cases hv1 : g.ContainsVertex src with
          | false => simp [hv1]
          | true =>
              cases hv2 : g.ContainsVertex dst with
              | false => simp [hv2]
              | true =>
                  obtain ⟨va, hva⟩ := Contains_add_some
                    (show g.vertices.Contains src = true from hv1)
                  obtain ⟨vb, hvb⟩ := Contains_add_some
                    (show g.vertices.Contains dst = true from hv2)
                  simp only [hc, hv1, hv2, Bool.not_true, Bool.or_self,
                    Bool.false_eq_true, if_false,
                    show es.AddTimestamp dst = mapFind es.add dst from rfl,
                    hta, checkedRem_eq,
                    show g.vertices.AddTimestamp src
                      = mapFind g.vertices.add src from rfl,
                    show g.vertices.AddTimestamp dst
                      = mapFind g.vertices.add dst from rfl,
                    hva, hvb, addBeforeVertexB_some ta hva,
                    addBeforeVertexB_some ta hvb]
                  cases hb1 : remDominatesB g.vertices src ta with
                  | true => simp [hb1]
                  | false =>
                      cases hb2 : remDominatesB g.vertices dst ta with
                      | true => simp [hb1, hb2]
                      | false =>
                          simp only [hb1, hb2, Bool.or_self,
                            Bool.false_eq_true, if_false]
                          by_cases hlt : ta < va
                          · simp [hlt]
                          · by_cases hlt2 : ta < vb
                            · simp [hlt, hlt2]
                            · simp [hlt, hlt2]
